import Mathlib

/-
Shallow embedding of the goldic/xsync repository (src/map.go, src/set.go).

A Go map is embedded as an association list `List (K × V)` holding the
entries in iteration order, together with the nil/non-nil distinction of
the Go map header (`Option`): `none` is the nil map, `some l` an allocated
map with entries `l`.  The version counters are Go `uint64` values, so
every bump is taken modulo `2 ^ 64`.  The mutex fields only serialize the
critical sections; sequentially each exported method is one atomic step,
so the embedding gives each method as a pure state transformer.
-/

namespace xsync

/-- Modulus of Go's `uint64`, the type of both version counters. -/
def W64 : Nat := 2 ^ 64

/-- Go map read `m[k]`: the entry with key `k`, if any (keys are unique,
so the first match in iteration order is the entry). -/
def goLookup {K V : Type} [DecidableEq K] : List (K × V) → K → Option V
  | [], _ => none
  | p :: rest, k => if p.1 = k then some p.2 else goLookup rest k

/-- Whether key `k` is present, as in `_, ok := m[k]`. -/
def goContains {K V : Type} [DecidableEq K] (l : List (K × V)) (k : K) : Bool :=
  (goLookup l k).isSome

/-- Replace the value stored under `k` by `v`, keeping the entry position. -/
def goReplace {K V : Type} [DecidableEq K] (k : K) (v : V) (l : List (K × V)) :
    List (K × V) :=
  l.map (fun p => if p.1 = k then (k, v) else p)

/-- Go map write `m[k] = v`: overwrite the existing entry, or append a new
one (a fresh key lands at an unspecified place in iteration order; the
embedding puts it at the end). -/
def goInsert {K V : Type} [DecidableEq K] (l : List (K × V)) (k : K) (v : V) :
    List (K × V) :=
  if goContains l k then goReplace k v l else l ++ [(k, v)]

/-- Go `delete(m, k)`: drop the entry with key `k`, if any (keys are
unique, so dropping every match is the same operation). -/
def goErase {K V : Type} [DecidableEq K] : List (K × V) → K → List (K × V)
  | [], _ => []
  | p :: rest, k => if p.1 = k then goErase rest k else p :: goErase rest k

/-- The n-th entry of the Go range loop used by `Random`: the loop
decrements `n` on every entry and returns the entry at which `n` hits 0;
`none` means the loop ran off the end (the `panic(1)` line). -/
def scanNth {A : Type} : List A → Nat → Option A
  | [], _ => none
  | a :: _, 0 => some a
  | _ :: rest, n + 1 => scanNth rest n

/-- State of `xsync.Map[K, T]` (src/map.go lines 17-21): a `uint64`
version counter `ver` and the possibly-nil map `vals`. -/
structure Map (K V : Type) where
  ver : Nat
  vals : Option (List (K × V))

/-- The zero value `var m Map[K, T]`: version 0, nil map. -/
def Map.empty {K V : Type} : Map K V := ⟨0, none⟩

/-- The entries seen by code that reads `m.vals`, with a nil map reading
as empty (Go reads on a nil map behave as on an empty map). -/
def Map.entries {K V : Type} (m : Map K V) : List (K × V) := m.vals.getD []

/-- `Clear` (map.go 29-34): reset `vals` to nil, bump `ver`. -/
def Map.Clear {K V : Type} (m : Map K V) : Map K V :=
  ⟨(m.ver + 1) % W64, none⟩

/-- `Set` (map.go 36-44): allocate the map if nil, store `value`, bump `ver`. -/
def Map.Set {K V : Type} [DecidableEq K] (m : Map K V) (k : K) (v : V) : Map K V :=
  ⟨(m.ver + 1) % W64, some (goInsert m.entries k v)⟩

/-- Modelled from the spec: `Increment` is commented out in src/map.go
(lines 46-58) and only its caller `TestMap_Increment` is compiled, so the
body is taken from the spec's description — inside one critical section
read the current value (absent keys contribute nothing, so the result
starts from the passed delta, i.e. the zero value plus delta), add the
stored value if present (`val += v`), store the sum, bump `ver`, and
return the sum — which matches the disabled source text verbatim. -/
def Map.Increment {K V : Type} [DecidableEq K] [Add V] (m : Map K V) (k : K)
    (val : V) : V × Map K V :=
  let l := m.entries
  let val' := match goLookup l k with
    | some v => val + v
    | none => val
  (val', ⟨(m.ver + 1) % W64, some (goInsert l k val')⟩)

/-- `Delete` (map.go 60-68): when `vals` is non-nil, delete the key and
bump `ver` (even when the key was absent); a nil map is left untouched. -/
def Map.Delete {K V : Type} [DecidableEq K] (m : Map K V) (k : K) : Map K V :=
  match m.vals with
  | none => m
  | some l => ⟨(m.ver + 1) % W64, some (goErase l k)⟩

/-- `Get` (map.go 70-78): the stored value, or the zero value of `V`
(embedded as `default`) when the key or the whole map is absent. -/
def Map.Get {K V : Type} [DecidableEq K] [Inhabited V] (m : Map K V) (k : K) : V :=
  (goLookup m.entries k).getD default

/-- `GetOrSet` (map.go 80-92): read under the read lock; on a miss run
`fn` outside any lock and `Set` the result.  Sequentially: return the
stored value unchanged, or store and return `fn ()`. -/
def Map.GetOrSet {K V : Type} [DecidableEq K] (m : Map K V) (k : K)
    (fn : Unit → V) : V × Map K V :=
  match goLookup m.entries k with
  | some v => (v, m)
  | none => (fn (), m.Set k (fn ()))

/-- `Exists` (map.go 94-103). -/
def Map.Exists {K V : Type} [DecidableEq K] (m : Map K V) (k : K) : Bool :=
  match m.vals with
  | none => false
  | some l => goContains l k

/-- `Len` (map.go 105-109): `len` of a nil map is 0. -/
def Map.Len {K V : Type} (m : Map K V) : Nat := m.entries.length

/-- `Version` (map.go 111-115). -/
def Map.Version {K V : Type} (m : Map K V) : Nat := m.ver

/-- `KeyValues` (map.go 117-128): a copy of all entries. -/
def Map.KeyValues {K V : Type} (m : Map K V) : List (K × V) := m.entries

/-- `Keys` (map.go 130-135, via `mapKeys`). -/
def Map.Keys {K V : Type} (m : Map K V) : List K := m.entries.map Prod.fst

/-- `Values` (map.go 137-148). -/
def Map.Values {K V : Type} (m : Map K V) : List V := m.entries.map Prod.snd

/-- `Pop` (map.go 156-168): remove and return the first entry the range
loop yields (embedded as the head); on a nil or empty map return nothing
(Go returns zero values) and leave `ver` alone. -/
def Map.Pop {K V : Type} (m : Map K V) : Option (K × V) × Map K V :=
  match m.vals with
  | some (p :: rest) => (some p, ⟨(m.ver + 1) % W64, some rest⟩)
  | _ => (none, m)

/-- `PopAll` (map.go 170-177): hand back `vals`, reset it to nil, bump
`ver` unconditionally. -/
def Map.PopAll {K V : Type} (m : Map K V) : Option (List (K × V)) × Map K V :=
  (m.vals, ⟨(m.ver + 1) % W64, none⟩)

/-- Outcome of `Random` (map.go 189-205) for a given draw `n` of
`rand.Intn cnt`: an entry, the empty-store zero result, or the
`panic(1)` after a scan miss. -/
inductive RandomOutcome (K V : Type)
  | ok (k : K) (v : V)
  | empty
  | panicked

/-- `Random` (map.go 189-205), with the draw `n` of `rand.Intn cnt` made
an explicit argument: when the map is non-empty, linearly scan iteration
order for the n-th entry; a scan miss is the `panic(1)` branch. -/
def Map.Random {K V : Type} (m : Map K V) (n : Nat) : RandomOutcome K V :=
  let l := m.entries
  if 0 < l.length then
    match scanNth l n with
    | some p => RandomOutcome.ok p.1 p.2
    | none => RandomOutcome.panicked
  else RandomOutcome.empty

/-- `MarshalJSON` (map.go 207-209): the document is the `KeyValues`
snapshot (the JSON text is the external codec's image of it). -/
def Map.MarshalJSON {K V : Type} (m : Map K V) : List (K × V) := m.KeyValues

/-- Go `encoding/json` decoding of an object with entries `doc` into an
existing map `base` (`Decode(&m.vals)`): a nil map is replaced by a fresh
one, otherwise the existing map is reused KEEPING its entries, and each
document entry is stored into it in turn. -/
def goMergeDecode {K V : Type} [DecidableEq K] (base : List (K × V))
    (doc : List (K × V)) : List (K × V) :=
  doc.foldl (fun l p => goInsert l p.1 p.2) base

/-- `UnmarshalJSON` (map.go 211-218) on a successful decode of a
well-formed document `doc`: decode into `&m.vals` (merge semantics of the
Go json package), bump `ver`. -/
def Map.UnmarshalJSON {K V : Type} [DecidableEq K] (m : Map K V)
    (doc : List (K × V)) : Map K V :=
  ⟨(m.ver + 1) % W64, some (goMergeDecode m.entries doc)⟩

/-- The spec's `FromJSON(doc)` round-trip target: decode `doc` into a
fresh zero-valued store. -/
def Map.FromJSON {K V : Type} [DecidableEq K] (doc : List (K × V)) : Map K V :=
  Map.empty.UnmarshalJSON doc

/-- Well-formedness invariant of every real Go map state: entry keys are
unique. -/
def Map.WF {K V : Type} (m : Map K V) : Prop := (m.entries.map Prod.fst).Nodup

instance {K V : Type} [DecidableEq K] (m : Map K V) : Decidable m.WF :=
  inferInstanceAs (Decidable ((m.entries.map Prod.fst).Nodup))

/-- State of `xsync.Set[K]` (src/set.go lines 14-18): a `uint64` version
counter and the possibly-nil key set `vals` (the `struct\x7b\x7d` values of
the Go map carry no data, so the state is the key list in iteration
order). -/
structure Set (K : Type) where
  ver : Nat
  vals : Option (List K)

/-- The zero value `var s Set[K]`. -/
def Set.empty {K : Type} : Set K := ⟨0, none⟩

/-- The keys seen by code reading `m.vals`, a nil map reading as empty. -/
def Set.entries {K : Type} (s : Set K) : List K := s.vals.getD []

/-- Go `m[k] = struct\x7b\x7d\x7b\x7d` on the key set: append the key if new. -/
def goAdd {K : Type} [DecidableEq K] (l : List K) (k : K) : List K :=
  if k ∈ l then l else l ++ [k]

/-- Go `delete(m, k)` on the key set. -/
def goEraseKey {K : Type} [DecidableEq K] : List K → K → List K
  | [], _ => []
  | x :: rest, k => if x = k then goEraseKey rest k else x :: goEraseKey rest k

/-- `Clear` (set.go 28-33): reset `vals` to a fresh EMPTY (non-nil) map,
bump `ver` — unlike `Map.Clear`, which resets to nil. -/
def Set.Clear {K : Type} (s : Set K) : Set K :=
  ⟨(s.ver + 1) % W64, some []⟩

/-- The method `Set` of the key-set store (set.go 35-43), under the
spec's name `Add` because `xsync.Set.Set` would shadow the type `Set`
itself: allocate if nil, add the key, bump `ver`. -/
def Set.Add {K : Type} [DecidableEq K] (s : Set K) (k : K) : Set K :=
  ⟨(s.ver + 1) % W64, some (goAdd s.entries k)⟩

/-- `Delete` (set.go 45-53): when `vals` is non-nil, delete the key and
bump `ver` (even when the key was absent); a nil map is left untouched. -/
def Set.Delete {K : Type} [DecidableEq K] (s : Set K) (k : K) : Set K :=
  match s.vals with
  | none => s
  | some l => ⟨(s.ver + 1) % W64, some (goEraseKey l k)⟩

/-- `Exists` (set.go 55-64). -/
def Set.Exists {K : Type} [DecidableEq K] (s : Set K) (k : K) : Bool :=
  match s.vals with
  | none => false
  | some l => decide (k ∈ l)

/-- `Size` (set.go 66-70). -/
def Set.Size {K : Type} (s : Set K) : Nat := s.entries.length

/-- `Version` (set.go 72-76). -/
def Set.Version {K : Type} (s : Set K) : Nat := s.ver

/-- `Values` (set.go 78-82, via `mapKeys`). -/
def Set.Values {K : Type} (s : Set K) : List K := s.entries

/-- `encString` (map.go 247-257) applied to a Go `int`: an `int` is not a
`string` and not a `fmt.Stringer`, so it JSON-encodes to its decimal
numeral (loop indices are non-negative, so `Nat` suffices). -/
def encStringInt (n : Nat) : String := toString n

/-- `encString` applied to a Go `string`: returned as-is (first switch case). -/
def encStringOfString (s : String) : String := s

/-- `Strings` (set.go 88-94), embedded faithfully INCLUDING its bug: the
loop `for k := range m.Values()` ranges over a slice with a single loop
variable, so `k` is successively the slice INDEX `0, 1, ...`, not the
key, and `encString(k)` therefore encodes the index. -/
def Set.Strings {K : Type} (s : Set K) : List String :=
  (List.range s.Values.length).map encStringInt

/-- `encString` applied to a `[]string`: `json.Marshal` of a string
slice, i.e. a JSON array of quoted strings (the elements produced by
`Set.Strings` are decimal numerals, so no escaping arises). -/
def jsonStringArray (ss : List String) : String :=
  "[" ++ String.intercalate "," (ss.map (fun x => "\x22" ++ x ++ "\x22")) ++ "]"

/-- `String` (set.go 84-86): `encString(m.Strings())`. -/
def Set.String {K : Type} (s : Set K) : String := jsonStringArray s.Strings

/-- `Pop` (set.go 96-107): remove and return the first key of iteration
order; nothing on a nil or empty map. -/
def Set.Pop {K : Type} (s : Set K) : Option K × Set K :=
  match s.vals with
  | some (k :: rest) => (some k, ⟨(s.ver + 1) % W64, some rest⟩)
  | _ => (none, s)

/-- `PopAll` (set.go 109-115): hand back the keys, reset `vals` to nil,
bump `ver` unconditionally. -/
def Set.PopAll {K : Type} (s : Set K) : List K × Set K :=
  (s.entries, ⟨(s.ver + 1) % W64, none⟩)

/-- Outcome of `Set.Random` (set.go 117-133) for a given draw `n`. -/
inductive RandomKeyOutcome (K : Type)
  | ok (k : K)
  | empty
  | panicked

/-- `Random` (set.go 117-133), the draw `n` of `rand.Intn cnt` explicit. -/
def Set.Random {K : Type} (s : Set K) (n : Nat) : RandomKeyOutcome K :=
  let l := s.entries
  if 0 < l.length then
    match scanNth l n with
    | some k => RandomKeyOutcome.ok k
    | none => RandomKeyOutcome.panicked
  else RandomKeyOutcome.empty

/-- `MarshalJSON` (set.go 135-137): the document is the key list. -/
def Set.MarshalJSON {K : Type} (s : Set K) : List K := s.Values

/-- `sliceToMap` (set.go 165-171): build a fresh key set from a slice. -/
def sliceToMap {K : Type} [DecidableEq K] (s : List K) : List K :=
  s.foldl goAdd []

/-- `UnmarshalJSON` (set.go 139-148): the external json codec's outcome on
the input bytes is the argument — `none` when `json.Unmarshal` fails, in
which case the method returns BEFORE taking the lock, touching neither
`vals` nor `ver`; on success the decoded key slice replaces `vals`
wholesale and `ver` is bumped. -/
def Set.UnmarshalJSON {K : Type} [DecidableEq K] (s : Set K)
    (input : Option (List K)) : Set K :=
  match input with
  | none => s
  | some vv => ⟨(s.ver + 1) % W64, some (sliceToMap vv)⟩

/-- `BinaryDecode` (set.go 154-163): same shape as `Set.UnmarshalJSON`
with the gob codec — `none` (decode error) returns before the lock with
the state untouched; success replaces `vals` and bumps `ver`. -/
def Set.BinaryDecode {K : Type} [DecidableEq K] (s : Set K)
    (input : Option (List K)) : Set K :=
  match input with
  | none => s
  | some vv => ⟨(s.ver + 1) % W64, some (sliceToMap vv)⟩

/-! Helper lemmas about the Go-map primitives. -/

theorem goLookup_nil {K V : Type} [DecidableEq K] (k : K) :
    goLookup ([] : List (K × V)) k = none := rfl

theorem goLookup_cons {K V : Type} [DecidableEq K] (p : K × V) (rest : List (K × V))
    (k : K) : goLookup (p :: rest) k = if p.1 = k then some p.2 else goLookup rest k := rfl

theorem goLookup_append {K V : Type} [DecidableEq K] (l₁ l₂ : List (K × V)) (k : K) :
    goLookup (l₁ ++ l₂) k = (goLookup l₁ k).or (goLookup l₂ k) := by
  induction l₁ with
  | nil => simp [goLookup_nil]
  | cons p rest ih =>
    by_cases hp : p.1 = k <;> simp [goLookup_cons, hp, ih]

theorem goContains_eq_false_iff {K V : Type} [DecidableEq K] (l : List (K × V)) (k : K) :
    goContains l k = false ↔ goLookup l k = none := by
  unfold goContains
  cases goLookup l k <;> simp

theorem goLookup_replace_self {K V : Type} [DecidableEq K] (l : List (K × V))
    (k : K) (v : V) (h : goContains l k = true) :
    goLookup (goReplace k v l) k = some v := by
  induction l with
  | nil => simp [goContains, goLookup_nil] at h
  | cons p rest ih =>
    by_cases hp : p.1 = k
    · simp [goReplace, goLookup_cons, hp]
    · have h' : goContains rest k = true := by
        unfold goContains at h ⊢
        rwa [goLookup_cons, if_neg hp] at h
      have := ih h'
      simp only [goReplace, List.map_cons, if_neg hp] at *
      rw [goLookup_cons, if_neg hp]
      exact this

theorem goLookup_insert_self {K V : Type} [DecidableEq K] (l : List (K × V))
    (k : K) (v : V) : goLookup (goInsert l k v) k = some v := by
  unfold goInsert
  by_cases h : goContains l k
  · simp [h, goLookup_replace_self l k v h]
  · have hn : goLookup l k = none := (goContains_eq_false_iff l k).mp (by simpa using h)
    simp [h, goLookup_append, hn, goLookup_cons]

theorem goLookup_replace_ne {K V : Type} [DecidableEq K] (l : List (K × V))
    (k k' : K) (v : V) (h : k' ≠ k) :
    goLookup (goReplace k v l) k' = goLookup l k' := by
  induction l with
  | nil => simp [goReplace, goLookup_nil]
  | cons p rest ih =>
    by_cases hp : p.1 = k
    · have hkk : ¬ (k = k') := fun hkk => h hkk.symm
      have hpk' : ¬ (p.1 = k') := by rw [hp]; exact hkk
      simp only [goReplace, List.map_cons, if_pos hp] at *
      rw [goLookup_cons, goLookup_cons]
      simp only [hkk, hpk', if_false]
      exact ih
    · simp only [goReplace, List.map_cons, if_neg hp] at *
      rw [goLookup_cons, goLookup_cons]
      by_cases hp' : p.1 = k'
      · simp [hp']
      · simp only [hp', if_false]
        exact ih

theorem goLookup_insert_ne {K V : Type} [DecidableEq K] (l : List (K × V))
    (k k' : K) (v : V) (h : k' ≠ k) :
    goLookup (goInsert l k v) k' = goLookup l k' := by
  unfold goInsert
  by_cases hc : goContains l k
  · simp [hc, goLookup_replace_ne l k k' v h]
  · have hkk : ¬ (k = k') := fun hkk => h hkk.symm
    simp only [hc, if_false, Bool.false_eq_true, ite_false, goLookup_append,
      goLookup_cons, goLookup_nil, hkk]
    cases goLookup l k' <;> rfl

theorem goLookup_erase_self {K V : Type} [DecidableEq K] (l : List (K × V)) (k : K) :
    goLookup (goErase l k) k = none := by
  induction l with
  | nil => rfl
  | cons p rest ih =>
    by_cases hp : p.1 = k
    · simpa [goErase, hp] using ih
    · simp only [goErase, hp, if_false, ite_false]
      rw [goLookup_cons, if_neg hp]
      exact ih

theorem goLookup_erase_ne {K V : Type} [DecidableEq K] (l : List (K × V))
    (k k' : K) (h : k' ≠ k) :
    goLookup (goErase l k) k' = goLookup l k' := by
  induction l with
  | nil => rfl
  | cons p rest ih =>
    by_cases hp : p.1 = k
    · have hpk' : ¬ (p.1 = k') := by rw [hp]; exact fun hkk => h hkk.symm
      simp only [goErase, hp, ite_true]
      rw [goLookup_cons, if_neg hpk']
      exact ih
    · simp only [goErase, hp, ite_false]
      rw [goLookup_cons, goLookup_cons]
      by_cases hp' : p.1 = k'
      · simp [hp']
      · simp only [hp', if_false, ite_false]
        exact ih

theorem goErase_of_lookup_none {K V : Type} [DecidableEq K] (l : List (K × V))
    (k : K) (h : goLookup l k = none) : goErase l k = l := by
  induction l with
  | nil => rfl
  | cons p rest ih =>
    rw [goLookup_cons] at h
    by_cases hp : p.1 = k
    · simp [hp] at h
    · simp only [hp, if_false, ite_false] at h
      simp only [goErase, hp, ite_false]
      rw [List.cons_inj_right]
      exact ih h

theorem goErase_sublist {K V : Type} [DecidableEq K] (l : List (K × V)) (k : K) :
    (goErase l k).Sublist l := by
  induction l with
  | nil => exact List.Sublist.refl []
  | cons p rest ih =>
    by_cases hp : p.1 = k
    · simp only [goErase, hp, ite_true]
      exact ih.cons p
    · simp only [goErase, hp, ite_false]
      exact ih.cons₂ p

theorem goEraseKey_of_not_mem {K : Type} [DecidableEq K] (l : List K) (k : K)
    (h : k ∉ l) : goEraseKey l k = l := by
  induction l with
  | nil => rfl
  | cons x rest ih =>
    have hx : ¬ (x = k) := fun hxk => h (by simp [hxk])
    have hr : k ∉ rest := fun hm => h (List.mem_cons_of_mem x hm)
    simp only [goEraseKey, hx, ite_false]
    rw [List.cons_inj_right]
    exact ih hr

theorem mem_keys_iff_lookup {K V : Type} [DecidableEq K] (l : List (K × V)) (k : K) :
    k ∈ l.map Prod.fst ↔ (goLookup l k).isSome := by
  induction l with
  | nil => simp [goLookup_nil]
  | cons p rest ih =>
    by_cases hp : p.1 = k
    · simp [goLookup_cons, hp]
    · have hkk : ¬ (k = p.1) := fun hkk => hp hkk.symm
      simp [goLookup_cons, hp, hkk, ih]

theorem goLookup_none_of_not_mem_keys {K V : Type} [DecidableEq K]
    (l : List (K × V)) (k : K) (h : k ∉ l.map Prod.fst) : goLookup l k = none := by
  rcases hl : goLookup l k with _ | v
  · rfl
  · exact absurd ((mem_keys_iff_lookup l k).mpr (by simp [hl])) h

theorem keys_goReplace {K V : Type} [DecidableEq K] (l : List (K × V)) (k : K) (v : V) :
    (goReplace k v l).map Prod.fst = l.map Prod.fst := by
  induction l with
  | nil => rfl
  | cons p rest ih =>
    by_cases hp : p.1 = k <;>
      simp only [goReplace, List.map_cons, hp, if_pos, if_neg, ite_true, ite_false] at ih ⊢ <;>
      simp_all [goReplace, hp]

theorem keys_goInsert_nodup {K V : Type} [DecidableEq K] (l : List (K × V))
    (k : K) (v : V) (h : (l.map Prod.fst).Nodup) :
    ((goInsert l k v).map Prod.fst).Nodup := by
  unfold goInsert
  by_cases hc : goContains l k
  · simpa [hc, keys_goReplace] using h
  · have hn : goLookup l k = none := (goContains_eq_false_iff l k).mp (by simpa using hc)
    have hk : k ∉ l.map Prod.fst := by
      rw [mem_keys_iff_lookup, hn]; simp
    simp [hc, List.nodup_append, h, hk]

theorem keys_goErase_nodup {K V : Type} [DecidableEq K] (l : List (K × V))
    (k : K) (h : (l.map Prod.fst).Nodup) :
    ((goErase l k).map Prod.fst).Nodup :=
  h.sublist ((goErase_sublist l k).map Prod.fst)

theorem goMergeDecode_cons {K V : Type} [DecidableEq K] (base : List (K × V))
    (p : K × V) (rest : List (K × V)) :
    goMergeDecode base (p :: rest) = goMergeDecode (goInsert base p.1 p.2) rest := rfl

theorem goMergeDecode_lookup {K V : Type} [DecidableEq K] (doc : List (K × V)) :
    ∀ (base : List (K × V)) (k : K), (doc.map Prod.fst).Nodup →
      goLookup (goMergeDecode base doc) k = (goLookup doc k).or (goLookup base k) := by
  induction doc with
  | nil => intro base k _; simp [goMergeDecode, goLookup_nil]
  | cons p rest ih =>
    intro base k hd
    have hd' : (rest.map Prod.fst).Nodup := (List.nodup_cons.mp (by simpa using hd)).2
    have hp1 : p.1 ∉ rest.map Prod.fst := (List.nodup_cons.mp (by simpa using hd)).1
    rw [goMergeDecode_cons, ih (goInsert base p.1 p.2) k hd']
    by_cases hpk : p.1 = k
    · subst hpk
      have hr : goLookup rest p.1 = none := goLookup_none_of_not_mem_keys rest p.1 hp1
      simp [goLookup_cons, hr, goLookup_insert_self]
    · have hkp : k ≠ p.1 := fun hkk => hpk hkk.symm
      rw [goLookup_cons, if_neg hpk, goLookup_insert_ne base p.1 k p.2 hkp]

/-! Sanity checks mirroring the repository's own tests. -/

example : (default : Int) = 0 := rfl

example :
    ((((Map.empty : Map String Int).Increment "abc" 100).2.Increment "abc" 20).2.Increment
      "abc" 3).2.Get "abc" = 123 := by decide

example :
    (((((Map.empty : Map String Int).Set "def" 456).Increment "abc" 100).2.Increment
      "abc" 20).2.Increment "def" (-56)).2.Get "def" = 400 := by decide

example : (⟨0, some ["abc"]⟩ : Set String).Strings = ["0"] := by decide

example : (⟨0, some ["abc"]⟩ : Set String).String = "[\x220\x22]" := by decide

/-! Claim C1. -/

/-- C1: `Increment(key, delta)` reads the current value for the key (the
zero value of `V` when absent), adds the delta, stores the sum, bumps the
version, and returns the new value; in particular the scenario
`Increment("abc", 100); Increment("abc", 20); Increment("abc", 3)` on an
empty store leaves `Get("abc") = 123`. -/
theorem Increment_adds_and_bumps_version {K : Type} [DecidableEq K]
    (m : Map K Int) (k : K) (d : Int) :
    (m.Increment k d).1 = m.Get k + d ∧
    ((m.Increment k d).2).Get k = m.Get k + d ∧
    ((m.Increment k d).2).Version = (m.Version + 1) % W64 ∧
    ((((Map.empty : Map String Int).Increment "abc" 100).2.Increment "abc" 20).2.Increment
      "abc" 3).2.Get "abc" = 123 := by
  have h1 : (m.Increment k d).1 = m.Get k + d := by
    unfold Map.Increment Map.Get
    rcases hl : goLookup m.entries k with _ | v
    · simp [hl]
    · simp [hl, Int.add_comm]
  refine ⟨h1, ?_, rfl, by decide⟩
  have h2 : ((m.Increment k d).2).Get k = (m.Increment k d).1 := by
    unfold Map.Increment Map.Get
    simp [Map.entries, goLookup_insert_self]
  rw [h2, h1]

/-! Claim C8. -/

/-- C8: when the key is present `GetOrSet` returns the stored value and
changes nothing (the supplier is never consulted: the result is a function
of the store alone); when absent it returns the supplier's value, stores
it via `Set`, and `Set` bumps the version. -/
theorem GetOrSet_spec {K V : Type} [DecidableEq K] [Inhabited V]
    (m : Map K V) (k : K) (fn : Unit → V) :
    m.GetOrSet k fn = (if m.Exists k then (m.Get k, m) else (fn (), m.Set k (fn ()))) ∧
    (m.Set k (fn ())).Version = (m.Version + 1) % W64 := by
  refine ⟨?_, rfl⟩
  unfold Map.GetOrSet Map.Exists Map.Get
  rcases hv : m.vals with _ | l
  · have : m.entries = [] := by simp [Map.entries, hv]
    simp [this, goLookup_nil]
  · have he : m.entries = l := by simp [Map.entries, hv]
    rcases hl : goLookup l k with _ | v
    · simp [he, hl, goContains]
    · simp [he, hl, goContains]

/-! Claim C9. -/

theorem scanNth_isSome {A : Type} :
    ∀ (l : List A) (n : Nat), n < l.length → (scanNth l n).isSome = true := by
  intro l
  induction l with
  | nil => intro n h; simp at h
  | cons a rest ih =>
    intro n h
    cases n with
    | zero => simp [scanNth]
    | succ n => exact ih n (by simpa using h)

/-- C9: with a draw `n` in `[0, size)` on a store of positive size, the
linear scan of `Random` always lands on an entry, for the keyed store and
the key-set store alike: the panic branch after the loop is unreachable. -/
theorem Random_scan_hits {K V : Type} (m : Map K V) (s : Set K)
    (n n' : Nat) (hm : n < m.Len) (hs : n' < s.Size) :
    m.Random n ≠ RandomOutcome.panicked ∧ s.Random n' ≠ RandomKeyOutcome.panicked := by
  constructor
  · unfold Map.Random
    have hpos : 0 < m.entries.length := Nat.lt_of_le_of_lt (Nat.zero_le n) hm
    rcases hscan : scanNth m.entries n with _ | p
    · have := scanNth_isSome m.entries n hm
      rw [hscan] at this
      simp at this
    · simp [hpos, hscan]
  · unfold Set.Random
    have hpos : 0 < s.entries.length := Nat.lt_of_le_of_lt (Nat.zero_le n') hs
    rcases hscan : scanNth s.entries n' with _ | x
    · have := scanNth_isSome s.entries n' hs
      rw [hscan] at this
      simp at this
    · simp [hpos, hscan]

/-- Witness for C9 at a one-entry keyed store and a one-key set store. -/
theorem Random_scan_hits_witness :
    0 < (⟨0, some [(1, 2)]⟩ : Map Nat Nat).Len ∧
    0 < (⟨0, some [5]⟩ : Set Nat).Size ∧
    ((⟨0, some [(1, 2)]⟩ : Map Nat Nat).Random 0 ≠ RandomOutcome.panicked ∧
      (⟨0, some [5]⟩ : Set Nat).Random 0 ≠ RandomKeyOutcome.panicked) :=
  ⟨by decide, by decide,
    Random_scan_hits (⟨0, some [(1, 2)]⟩ : Map Nat Nat) (⟨0, some [5]⟩ : Set Nat)
      0 0 (by decide) (by decide)⟩

/-! Claim C4. -/

/-- C4 counterexample: key 1 is absent from the one-entry store (which
holds only key 0), yet `Delete 1` bumps the version from 1 to 2, because
both Delete implementations bump whenever the internal map is allocated,
not only when an entry was removed. -/
theorem Delete_absent_version_counterexample :
    (⟨1, some [(0, 5)]⟩ : Map Nat Nat).Exists 1 = false ∧
    ¬ (((⟨1, some [(0, 5)]⟩ : Map Nat Nat).Delete 1).Version = 1) := by
  exact ⟨by decide, by decide⟩

/-- C4 amended: deleting an absent key leaves the mapping unchanged, and
leaves the version unchanged ONLY when the internal map is nil; when the
map is allocated the version is bumped even though nothing was removed
(keyed store and key-set store alike). -/
theorem Delete_absent_frame {K V : Type} [DecidableEq K]
    (m : Map K V) (s : Set K) (k : K)
    (hm : m.Exists k = false) (hs : s.Exists k = false) :
    (m.Delete k).vals = m.vals ∧
    (m.Delete k).Version = (match m.vals with
      | none => m.Version
      | some _ => (m.Version + 1) % W64) ∧
    (s.Delete k).vals = s.vals ∧
    (s.Delete k).Version = (match s.vals with
      | none => s.Version
      | some _ => (s.Version + 1) % W64) := by
  refine ⟨?_, ?_, ?_, ?_⟩
  · rcases hv : m.vals with _ | l
    · simp [Map.Delete, hv]
    · have hc : goContains l k = false := by
        have := hm
        unfold Map.Exists at this
        rwa [hv] at this
      have hn : goLookup l k = none := (goContains_eq_false_iff l k).mp hc
      simp [Map.Delete, hv, goErase_of_lookup_none l k hn]
  · rcases hv : m.vals with _ | l <;> simp [Map.Delete, Map.Version, hv]
  · rcases hv : s.vals with _ | l
    · simp [Set.Delete, hv]
    · have hnm : k ∉ l := by
        have := hs
        unfold Set.Exists at this
        rw [hv] at this
        simpa using this
      simp [Set.Delete, hv, goEraseKey_of_not_mem l k hnm]
  · rcases hv : s.vals with _ | l <;> simp [Set.Delete, Set.Version, hv]

/-- Witness for the amended C4: a keyed store with allocated storage and a
key-set store with nil storage, both asked to delete an absent key. -/
theorem Delete_absent_frame_witness :
    (⟨7, some [(0, 1)]⟩ : Map Nat Nat).Exists 9 = false ∧
    (⟨3, none⟩ : Set Nat).Exists 9 = false ∧
    (((⟨7, some [(0, 1)]⟩ : Map Nat Nat).Delete 9).vals =
        (⟨7, some [(0, 1)]⟩ : Map Nat Nat).vals ∧
      ((⟨7, some [(0, 1)]⟩ : Map Nat Nat).Delete 9).Version =
        (match (⟨7, some [(0, 1)]⟩ : Map Nat Nat).vals with
          | none => (⟨7, some [(0, 1)]⟩ : Map Nat Nat).Version
          | some _ => ((⟨7, some [(0, 1)]⟩ : Map Nat Nat).Version + 1) % W64) ∧
      ((⟨3, none⟩ : Set Nat).Delete 9).vals = (⟨3, none⟩ : Set Nat).vals ∧
      ((⟨3, none⟩ : Set Nat).Delete 9).Version =
        (match (⟨3, none⟩ : Set Nat).vals with
          | none => (⟨3, none⟩ : Set Nat).Version
          | some _ => ((⟨3, none⟩ : Set Nat).Version + 1) % W64)) :=
  ⟨by decide, by decide,
    Delete_absent_frame (⟨7, some [(0, 1)]⟩ : Map Nat Nat) (⟨3, none⟩ : Set Nat) 9
      (by decide) (by decide)⟩

/-! Claim C2. -/

/-- C2 counterexample: decoding the document [(2, 20)] into a store that
holds key 1 does NOT remove key 1 — the Go json decoder reuses a non-nil
map and keeps its existing entries, so the decode merges rather than
replaces, contradicting the claim that a key absent from the document is
no longer present. -/
theorem UnmarshalJSON_keeps_stale_key :
    ¬ (((⟨0, some [(1, 10)]⟩ : Map Nat Nat).UnmarshalJSON [(2, 20)]).Exists 1 = false) := by
  decide

/-- C2 amended: a successful decode of a well-formed document MERGES it
into the prior mapping — afterwards a lookup returns the document's value
for document keys and the old value for every other previously present
key — and the version is bumped once. -/
theorem UnmarshalJSON_merges {K V : Type} [DecidableEq K]
    (m : Map K V) (doc : List (K × V)) (k : K) (hd : (doc.map Prod.fst).Nodup) :
    goLookup ((m.UnmarshalJSON doc).KeyValues) k =
      (goLookup doc k).or (goLookup m.KeyValues k) ∧
    (m.UnmarshalJSON doc).Version = (m.Version + 1) % W64 := by
  refine ⟨?_, rfl⟩
  unfold Map.UnmarshalJSON Map.KeyValues
  simp only [Map.entries, Option.getD_some]
  exact goMergeDecode_lookup doc m.entries k hd

/-- Witness for the amended C2: the stale key 1 survives the decode of a
document holding only key 2. -/
theorem UnmarshalJSON_merges_witness :
    (([(2, 20)].map (Prod.fst (α := Nat) (β := Nat))).Nodup) ∧
    (goLookup (((⟨0, some [(1, 10)]⟩ : Map Nat Nat).UnmarshalJSON [(2, 20)]).KeyValues) 1 =
        (goLookup [(2, 20)] 1).or (goLookup (⟨0, some [(1, 10)]⟩ : Map Nat Nat).KeyValues 1) ∧
      ((⟨0, some [(1, 10)]⟩ : Map Nat Nat).UnmarshalJSON [(2, 20)]).Version =
        ((⟨0, some [(1, 10)]⟩ : Map Nat Nat).Version + 1) % W64) :=
  ⟨by decide,
    UnmarshalJSON_merges (⟨0, some [(1, 10)]⟩ : Map Nat Nat) [(2, 20)] 1 (by decide)⟩

/-! Claim C7. -/

/-- C7: decoding a store's JSON snapshot into a fresh zero-valued store
reproduces exactly the original key-value mapping (the version counter
aside): every lookup agrees. -/
theorem FromJSON_MarshalJSON_roundtrip {K V : Type} [DecidableEq K]
    (m : Map K V) (k : K) (h : m.WF) :
    goLookup ((Map.FromJSON m.MarshalJSON).KeyValues) k = goLookup m.KeyValues k := by
  unfold Map.FromJSON Map.MarshalJSON Map.UnmarshalJSON Map.KeyValues
  simp only [Map.entries, Option.getD_some]
  have hbase : (Map.empty : Map K V).vals.getD [] = [] := rfl
  have h' : ((m.vals.getD []).map Prod.fst).Nodup := h
  rw [hbase, goMergeDecode_lookup (m.vals.getD []) [] k h']
  cases goLookup (m.vals.getD []) k <;> rfl

/-- Witness for C7 on a two-entry store. -/
theorem FromJSON_MarshalJSON_roundtrip_witness :
    (⟨5, some [(1, 2), (3, 4)]⟩ : Map Nat Nat).WF ∧
    goLookup ((Map.FromJSON (⟨5, some [(1, 2), (3, 4)]⟩ : Map Nat Nat).MarshalJSON).KeyValues) 3 =
      goLookup (⟨5, some [(1, 2), (3, 4)]⟩ : Map Nat Nat).KeyValues 3 :=
  ⟨by decide,
    FromJSON_MarshalJSON_roundtrip (⟨5, some [(1, 2), (3, 4)]⟩ : Map Nat Nat) 3 (by decide)⟩

/-! Claim C10. -/

/-- C10: when the input bytes fail to decode, both `Set.UnmarshalJSON` and
`Set.BinaryDecode` return before taking the lock, so the key-set store is
left completely unchanged: same keys, same version. -/
theorem Set_decode_failure_atomic {K : Type} [DecidableEq K]
    (s : Set K) (input : Option (List K)) (h : input = none) :
    s.UnmarshalJSON input = s ∧ s.BinaryDecode input = s := by
  subst h
  exact ⟨rfl, rfl⟩

/-- Witness for C10 on a concrete two-key store. -/
theorem Set_decode_failure_atomic_witness :
    (none : Option (List Nat)) = none ∧
    ((⟨3, some [1, 2]⟩ : Set Nat).UnmarshalJSON none = (⟨3, some [1, 2]⟩ : Set Nat) ∧
      (⟨3, some [1, 2]⟩ : Set Nat).BinaryDecode none = (⟨3, some [1, 2]⟩ : Set Nat)) :=
  ⟨rfl, Set_decode_failure_atomic (⟨3, some [1, 2]⟩ : Set Nat) none rfl⟩

/-! Claim C3. -/

/-- C3 (code bug): on the store containing the single key "abc", `Strings`
renders ["0"] — the JSON encoding of the slice INDEX — because
`for k := range m.Values()` binds `k` to the index 0, 1, ..., not to the
key; the string encoding "abc" of the stored key never appears, although
the array still has one element per stored key, and the display form is
the JSON array of those index numerals. -/
theorem Set_Strings_encodes_indices :
    (⟨0, some ["abc"]⟩ : Set String).Strings = ["0"] ∧
    encStringOfString "abc" ∉ (⟨0, some ["abc"]⟩ : Set String).Strings ∧
    (⟨0, some ["abc"]⟩ : Set String).Strings.length = (⟨0, some ["abc"]⟩ : Set String).Size ∧
    (⟨0, some ["abc"]⟩ : Set String).String = "[\x220\x22]" :=
  ⟨by decide, by decide, by decide, by decide⟩

/-! Claim C6. -/

/-- One operation of a Set/Delete trace against the keyed store. -/
inductive SDOp (K V : Type) where
  | set (k : K) (v : V)
  | del (k : K)

/-- Run one trace operation. -/
def applySD {K V : Type} [DecidableEq K] (m : Map K V) : SDOp K V → Map K V
  | SDOp.set k v => m.Set k v
  | SDOp.del k => m.Delete k

/-- Run a trace from the zero-valued (empty) store. -/
def runSD {K V : Type} [DecidableEq K] (ops : List (SDOp K V)) : Map K V :=
  ops.foldl applySD Map.empty

/-- The claim's reference predicate, in its own words: the key was set at
some point in the trace and not subsequently deleted. -/
def specSetNotDeleted {K V : Type} [DecidableEq K] (ops : List (SDOp K V)) (k : K) : Bool :=
  ops.foldl (fun b op => match op with
    | SDOp.set k' _ => if k' = k then true else b
    | SDOp.del k' => if k' = k then false else b) false

theorem Map.Exists_eq_lookup {K V : Type} [DecidableEq K] (m : Map K V) (k : K) :
    m.Exists k = (goLookup m.entries k).isSome := by
  unfold Map.Exists Map.entries goContains
  rcases m.vals with _ | l <;> simp [goLookup_nil]

theorem applySD_Exists {K V : Type} [DecidableEq K] (m : Map K V) (op : SDOp K V) (k : K) :
    (applySD m op).Exists k = (match op with
      | SDOp.set k' _ => if k' = k then true else m.Exists k
      | SDOp.del k' => if k' = k then false else m.Exists k) := by
  rcases op with ⟨k', v⟩ | ⟨k'⟩
  · by_cases hk : k' = k
    · rw [Map.Exists_eq_lookup]
      simp only [applySD, Map.Set, Map.entries, Option.getD_some, hk, if_pos]
      simp [goLookup_insert_self]
    · have hne : k ≠ k' := fun hkk => hk hkk.symm
      rw [Map.Exists_eq_lookup, Map.Exists_eq_lookup]
      simp only [applySD, Map.Set, Map.entries, Option.getD_some, hk, if_neg,
        ite_false]
      rw [goLookup_insert_ne (m.vals.getD []) k' k v hne]
  · rcases hv : m.vals with _ | l
    · have hm : m.Exists k = false := by unfold Map.Exists; rw [hv]
      have hd : applySD m (SDOp.del k') = m := by simp [applySD, Map.Delete, hv]
      rw [hd, hm]
      by_cases hk : k' = k <;> simp [hk]
    · have he : m.Exists k = (goLookup l k).isSome := by
        rw [Map.Exists_eq_lookup]; simp [Map.entries, hv]
      have hd : applySD m (SDOp.del k') =
          ⟨(m.ver + 1) % W64, some (goErase l k')⟩ := by simp [applySD, Map.Delete, hv]
      rw [hd, Map.Exists_eq_lookup]
      by_cases hk : k' = k
      · subst hk
        simp [Map.entries, goLookup_erase_self]
      · have hne : k ≠ k' := fun hkk => hk hkk.symm
        simp only [Map.entries, Option.getD_some, hk, ite_false]
        rw [goLookup_erase_ne l k' k hne, he]

theorem foldl_applySD_Exists {K V : Type} [DecidableEq K] :
    ∀ (ops : List (SDOp K V)) (m : Map K V) (k : K),
      (ops.foldl applySD m).Exists k =
        ops.foldl (fun b op => match op with
          | SDOp.set k' _ => if k' = k then true else b
          | SDOp.del k' => if k' = k then false else b) (m.Exists k) := by
  intro ops
  induction ops with
  | nil => intro m k; rfl
  | cons op rest ih =>
    intro m k
    rw [List.foldl_cons, List.foldl_cons, ih (applySD m op) k, applySD_Exists m op k]

theorem applySD_WF {K V : Type} [DecidableEq K] (m : Map K V) (op : SDOp K V)
    (h : m.WF) : (applySD m op).WF := by
  rcases op with ⟨k, v⟩ | ⟨k⟩
  · have : ((goInsert m.entries k v).map Prod.fst).Nodup := keys_goInsert_nodup _ k v h
    simpa [applySD, Map.Set, Map.WF, Map.entries] using this
  · rcases hv : m.vals with _ | l
    · simpa [applySD, Map.Delete, hv] using h
    · have hl : (l.map Prod.fst).Nodup := by
        have := h; unfold Map.WF Map.entries at this; rwa [hv] at this
      have : ((goErase l k).map Prod.fst).Nodup := keys_goErase_nodup l k hl
      simpa [applySD, Map.Delete, Map.WF, Map.entries, hv] using this

theorem runSD_WF {K V : Type} [DecidableEq K] (ops : List (SDOp K V)) :
    (runSD ops).WF := by
  have hgen : ∀ (os : List (SDOp K V)) (m : Map K V), m.WF → (os.foldl applySD m).WF := by
    intro os
    induction os with
    | nil => intro m h; exact h
    | cons op rest ih =>
      intro m h
      rw [List.foldl_cons]
      exact ih (applySD m op) (applySD_WF m op h)
  exact hgen ops Map.empty (by unfold Map.WF Map.entries Map.empty; simp)

/-- C6: after any finite Set/Delete trace from the empty store, `Len`
equals the number of distinct keys present — the `Keys` snapshot is
duplicate-free, lists exactly the keys `Exists` accepts, and has length
`Len` — and `Exists k` holds iff `k` was set at some point in the trace
and not subsequently deleted. -/
theorem Len_Exists_characterization {K V : Type} [DecidableEq K]
    (ops : List (SDOp K V)) (k : K) :
    (runSD ops).Len = ((runSD ops).Keys).length ∧
    ((runSD ops).Keys).Nodup ∧
    (k ∈ (runSD ops).Keys ↔ (runSD ops).Exists k = true) ∧
    (runSD ops).Exists k = specSetNotDeleted ops k := by
  refine ⟨?_, runSD_WF ops, ?_, ?_⟩
  · simp [Map.Len, Map.Keys]
  · rw [Map.Keys, mem_keys_iff_lookup, Map.Exists_eq_lookup]
  · have hstart : (Map.empty : Map K V).Exists k = false := rfl
    unfold runSD specSetNotDeleted
    rw [foldl_applySD_Exists ops Map.empty k, hstart]

/-! Claim C5. -/

/-- One arbitrary mutating operation against the keyed store (values fixed
to `Int` so that `Increment` is available). -/
inductive MapOp (K : Type) where
  | set (k : K) (v : Int)
  | del (k : K)
  | clear
  | pop
  | popAll
  | inc (k : K) (v : Int)
  | getOrSet (k : K) (fn : Unit → Int)

/-- Run one operation for its state effect. -/
def applyOp {K : Type} [DecidableEq K] (m : Map K Int) : MapOp K → Map K Int
  | MapOp.set k v => m.Set k v
  | MapOp.del k => m.Delete k
  | MapOp.clear => m.Clear
  | MapOp.pop => m.Pop.2
  | MapOp.popAll => m.PopAll.2
  | MapOp.inc k v => (m.Increment k v).2
  | MapOp.getOrSet k fn => (m.GetOrSet k fn).2

/-- C5 counterexample: a store whose `uint64` version counter sits at
`2 ^ 64 - 1` (reachable after that many mutations) wraps to 0 on the next
`Set`, so the observed version DECREASES across that operation: without a
no-overflow proviso neither monotonicity nor the strict increase on `Set`
holds. -/
theorem Version_wraparound :
    ¬ ((⟨W64 - 1, none⟩ : Map Nat Int).Version ≤
        (applyOp (⟨W64 - 1, none⟩ : Map Nat Int) (MapOp.set 0 0)).Version) := by
  have hv : (applyOp (⟨W64 - 1, none⟩ : Map Nat Int) (MapOp.set 0 0)).Version =
      (W64 - 1 + 1) % W64 := rfl
  rw [hv]
  have hw : 0 < W64 := by unfold W64; positivity
  have h0 : (W64 - 1 + 1) % W64 = 0 := by
    rw [Nat.sub_add_cancel (Nat.one_le_iff_ne_zero.mpr (Nat.pos_iff_ne_zero.mp hw))]
    exact Nat.mod_self W64
  rw [h0]
  unfold Map.Version
  simp only [Nat.le_zero]
  unfold W64
  omega

/-- C5 amended: as long as the version counter has not reached the
`uint64` maximum (no wraparound on the next bump), `Version` is
non-decreasing across every single operation, and it strictly increases
on every `Set`, every `Increment`, every `PopAll`, and every `Delete`
against a non-empty store. -/
theorem Version_monotone_no_wrap {K : Type} [DecidableEq K]
    (m : Map K Int) (op : MapOp K) (h : m.Version + 1 < W64) :
    m.Version ≤ (applyOp m op).Version ∧
    (∀ k v, m.Version < (applyOp m (MapOp.set k v)).Version) ∧
    (∀ k v, m.Version < (applyOp m (MapOp.inc k v)).Version) ∧
    (m.Version < (applyOp m MapOp.popAll).Version) ∧
    (∀ k, 0 < m.Len → m.Version < (applyOp m (MapOp.del k)).Version) := by
  have hmod : (m.ver + 1) % W64 = m.ver + 1 := Nat.mod_eq_of_lt h
  have hset : ∀ (k : K) (v : Int),
      (applyOp m (MapOp.set k v)).Version = (m.ver + 1) % W64 := fun _ _ => rfl
  have hinc : ∀ (k : K) (v : Int),
      (applyOp m (MapOp.inc k v)).Version = (m.ver + 1) % W64 := fun _ _ => rfl
  refine ⟨?_, ?_, ?_, ?_, ?_⟩
  · rcases op with ⟨k, v⟩ | ⟨k⟩ | _ | _ | _ | ⟨k, v⟩ | ⟨k, fn⟩
    · rw [hset k v, hmod]; exact Nat.le_succ _
    · rcases hvals : m.vals with _ | l
      · have hv : applyOp m (MapOp.del k) = m := by simp [applyOp, Map.Delete, hvals]
        rw [hv]
      · have hv : (applyOp m (MapOp.del k)).Version = (m.ver + 1) % W64 := by
          simp [applyOp, Map.Delete, Map.Version, hvals]
        rw [hv, hmod]; exact Nat.le_succ _
    · have hv : (applyOp m MapOp.clear).Version = (m.ver + 1) % W64 := rfl
      rw [hv, hmod]; exact Nat.le_succ _
    · rcases hvals : m.vals with _ | l
      · have hv : applyOp m MapOp.pop = m := by simp [applyOp, Map.Pop, hvals]
        rw [hv]
      · rcases l with _ | ⟨p, rest⟩
        · have hv : applyOp m MapOp.pop = m := by simp [applyOp, Map.Pop, hvals]
          rw [hv]
        · have hv : (applyOp m MapOp.pop).Version = (m.ver + 1) % W64 := by
            simp [applyOp, Map.Pop, Map.Version, hvals]
          rw [hv, hmod]; exact Nat.le_succ _
    · have hv : (applyOp m MapOp.popAll).Version = (m.ver + 1) % W64 := rfl
      rw [hv, hmod]; exact Nat.le_succ _
    · rw [hinc k v, hmod]; exact Nat.le_succ _
    · rcases hl : goLookup m.entries k with _ | v
      · have hv : (applyOp m (MapOp.getOrSet k fn)).Version = (m.ver + 1) % W64 := by
          simp [applyOp, Map.GetOrSet, Map.Set, Map.Version, hl]
        rw [hv, hmod]; exact Nat.le_succ _
      · have hv : applyOp m (MapOp.getOrSet k fn) = m := by
          simp [applyOp, Map.GetOrSet, hl]
        rw [hv]
  · intro k v; rw [hset k v, hmod]; exact Nat.lt_succ_self _
  · intro k v; rw [hinc k v, hmod]; exact Nat.lt_succ_self _
  · have hv : (applyOp m MapOp.popAll).Version = (m.ver + 1) % W64 := rfl
    rw [hv, hmod]; exact Nat.lt_succ_self _
  · intro k hlen
    rcases hvals : m.vals with _ | l
    · have : m.Len = 0 := by simp [Map.Len, Map.entries, hvals]
      omega
    · have hv : (applyOp m (MapOp.del k)).Version = (m.ver + 1) % W64 := by
        simp [applyOp, Map.Delete, Map.Version, hvals]
      rw [hv, hmod]; exact Nat.lt_succ_self _

/-- Witness for the amended C5: a fresh store and a `Set`. -/
theorem Version_monotone_no_wrap_witness :
    (⟨0, none⟩ : Map Nat Int).Version + 1 < W64 ∧
    (⟨0, none⟩ : Map Nat Int).Version <
      (applyOp (⟨0, none⟩ : Map Nat Int) (MapOp.set 0 0)).Version :=
  ⟨by norm_num [Map.Version, W64],
    (Version_monotone_no_wrap (⟨0, none⟩ : Map Nat Int) (MapOp.set 0 0)
      (by norm_num [Map.Version, W64])).2.1 0 0⟩

end xsync
